import Mathlib

/-!
Verification of the semantic segmentation core of `Segment/segment_cases_ml.py`.

The Python code is shallowly embedded here.  Python strings are modelled as
lists of characters (`Str`), Python `int` as `ℤ`, and the floating-point
similarity values as real numbers (for the cosine computation, which uses a
square root) or as rationals where only ordered-field structure matters.
Each definition carries the name of the Python function it embeds.
-/

/-- A Python string, modelled as its character sequence. -/
abbrev Str := List Char

/-- Python `str.strip()`: drop whitespace from both ends. -/
def pyStrip (s : Str) : Str :=
  ((s.dropWhile Char.isWhitespace).reverse.dropWhile Char.isWhitespace).reverse

/-- Python `len(s.split())`: the number of maximal nonempty runs of
non-whitespace characters (word count). -/
def wordCount (s : Str) : ℕ :=
  ((s.splitOnP Char.isWhitespace).filter (fun w => w ≠ [])).length

/-- Python `" ".join(ls)`. -/
def joinSpace : List Str → Str
  | [] => []
  | [s] => s
  | s :: t :: rest => s ++ ' ' :: joinSpace (t :: rest)

/-- Sentence-terminal punctuation, the character class `[.!?]` of the
tokenizer's regex. -/
def isTerm (c : Char) : Bool :=
  c = '.' || c = '!' || c = '?'

/-- The splitter core of `re.split(r'(?<=[.!?])\s+', text)`: a split occurs at
each maximal whitespace run whose preceding character is sentence-terminal
punctuation; the whitespace run is consumed (greedily, tracked by the
`skipping` flag), the pieces are kept.  `accRev` holds the current piece in
reverse. -/
def sentSplitGo (skipping : Bool) (accRev : Str) : Str → List Str
  | [] => [accRev.reverse]
  | c :: rest =>
    if skipping then
      if c.isWhitespace then sentSplitGo true [] rest
      else sentSplitGo false [c] rest
    else if c.isWhitespace && (match accRev with | p :: _ => isTerm p | [] => false) then
      accRev.reverse :: sentSplitGo true [] rest
    else
      sentSplitGo false (c :: accRev) rest

/-- `split_into_sentences` from `segment_cases_ml.py`:
`re.split(r'(?<=[.!?])\s+', text.strip())`, then strip each piece and drop
empty pieces. -/
def split_into_sentences (text : Str) : List Str :=
  ((sentSplitGo false [] (pyStrip text)).map pyStrip).filter (fun s => s ≠ [])

/-- The loop body of `merge_short_sentences`: `merged` is the output so far,
`buffer` the pending run of short sentences. -/
def mergeGo (min_words : ℤ) (merged : List Str) (buffer : Str) : List Str → List Str
  | [] => if buffer ≠ [] then merged ++ [pyStrip buffer] else merged
  | s :: rest =>
    if (wordCount s : ℤ) < min_words then
      mergeGo min_words merged (pyStrip (buffer ++ ' ' :: s)) rest
    else
      if buffer ≠ [] then
        mergeGo min_words (merged ++ [pyStrip buffer, s]) [] rest
      else
        mergeGo min_words (merged ++ [s]) [] rest

/-- `merge_short_sentences` from `segment_cases_ml.py`: sentences with fewer
than `min_words` words are accumulated into a running buffer; the buffer is
flushed before any long sentence and at the end of the input. -/
def merge_short_sentences (sentences : List Str) (min_words : ℤ) : List Str :=
  mergeGo min_words [] [] sentences

/-- `np.dot` on two equal-length vectors, as used pairwise in
`cosine_similarities`. -/
def dotP {α : Type} [LinearOrderedField α] (a b : List α) : α :=
  (List.zipWith (fun x y => x * y) a b).sum

/-- `np.linalg.norm a`: the Euclidean norm, a real square root. -/
noncomputable def norm2 (a : List ℝ) : ℝ :=
  Real.sqrt ((a.map (fun x => x * x)).sum)

/-- `cosine_similarities` from `segment_cases_ml.py`: consecutive-pair cosine
similarities, `0.0` when either norm is zero. -/
noncomputable def cosine_similarities (embeddings : List (List ℝ)) : List ℝ :=
  (embeddings.zip embeddings.tail).map (fun p =>
    if norm2 p.1 * norm2 p.2 = 0 then 0 else dotP p.1 p.2 / (norm2 p.1 * norm2 p.2))

/-- `smooth` from `segment_cases_ml.py`: `window <= 1` returns the input
unchanged; otherwise the series is edge-padded by `window // 2` copies of each
boundary value and convolved (mode `valid`) with the constant kernel
`ones(window)/window`.  `np.pad(..., mode='edge')` raises on an empty array,
modelled by `none`. -/
def smooth {α : Type} [LinearOrderedField α] (a : List α) (window : ℤ) :
    Option (List α) :=
  if window ≤ 1 then some a
  else
    match a with
    | [] => none
    | x :: _ =>
      let pad := (window / 2).toNat
      let w := window.toNat
      let padded := List.replicate pad x ++ a ++ List.replicate pad (a.getLastD x)
      some ((List.range (padded.length + 1 - w)).map
        (fun j => ((padded.drop j).take w).sum / (window : α)))

/-- `np.where(smoothed < threshold)[0]`: the ascending list of indices whose
entry is below the threshold. -/
def lowIdx {α : Type} [LinearOrderedField α] (smoothed : List α) (threshold : α) :
    List ℕ :=
  (List.range smoothed.length).filter (fun i => decide (smoothed.getD i 0 < threshold))

/-- The duplicate-filtering loop of `find_boundaries`: an index is appended
when its gap to the last kept index is positive. -/
def dedupAdj (last : ℕ) : List ℕ → List ℕ
  | [] => []
  | idx :: rest =>
    if 0 < (idx : ℤ) - (last : ℤ) then idx :: dedupAdj idx rest
    else dedupAdj last rest

/-- `find_boundaries` from `segment_cases_ml.py`. -/
def find_boundaries {α : Type} [LinearOrderedField α] (smoothed : List α)
    (threshold : α) : List ℕ :=
  match lowIdx smoothed threshold with
  | [] => []
  | x :: xs => x :: dedupAdj x xs

/-- `seg_word_count` from `enforce_min_segment_length`: total word count of
the sentences with indices in the inclusive range `seg`. -/
def seg_word_count (sentences : List Str) (seg : ℕ × ℕ) : ℕ :=
  ((List.range' seg.1 (seg.2 + 1 - seg.1)).map (fun i => wordCount (sentences.getD i []))).sum

/-- The segment-materialization loop of `enforce_min_segment_length`: each
boundary `b` closes the open range at sentence `b` and the next range opens at
`b + 1`; a final range runs to the last sentence. -/
def buildSegsGo (start : ℕ) (boundaries : List ℕ) (n : ℕ) : List (ℕ × ℕ) :=
  match boundaries with
  | [] => [(start, n - 1)]
  | b :: rest => (start, b) :: buildSegsGo (b + 1) rest n

/-- The merge-compaction `while` loop of `enforce_min_segment_length`: an
undersized range is merged into its predecessor when one exists (rescanning
from the merged position), else into its successor when one exists, else
skipped. -/
def enforceLoop (sentences : List Str) (min_words : ℤ) (segs : List (ℕ × ℕ))
    (i : ℕ) : List (ℕ × ℕ) :=
  if h : i < segs.length then
    if (seg_word_count sentences (segs.getD i (0, 0)) : ℤ) < min_words then
      if hp : 0 < i then
        enforceLoop sentences min_words
          ((segs.set (i - 1) ((segs.getD (i - 1) (0, 0)).1, (segs.getD i (0, 0)).2)).eraseIdx i)
          (i - 1)
      else if hn : i + 1 < segs.length then
        enforceLoop sentences min_words
          ((segs.set i ((segs.getD i (0, 0)).1, (segs.getD (i + 1) (0, 0)).2)).eraseIdx (i + 1))
          i
      else
        enforceLoop sentences min_words segs (i + 1)
    else
      enforceLoop sentences min_words segs (i + 1)
  else segs
termination_by 2 * segs.length - i
decreasing_by
  · simp only [List.length_eraseIdx, List.length_set, h, if_true]
    omega
  · simp only [List.length_eraseIdx, List.length_set, hn, if_true]
    omega
  · omega
  · omega

/-- `enforce_min_segment_length` from `segment_cases_ml.py`. -/
def enforce_min_segment_length (sentences : List Str) (boundaries : List ℕ)
    (min_words : ℤ) : List (ℕ × ℕ) :=
  enforceLoop sentences min_words (buildSegsGo 0 boundaries sentences.length) 0

/-- The trace of the merge-compaction loop: the range list as it stands at
every entry of the `while` condition check — the initial materialization,
the state after every merge, and the states after the pass/skip steps. -/
def enforceStates (sentences : List Str) (min_words : ℤ) (segs : List (ℕ × ℕ))
    (i : ℕ) : List (List (ℕ × ℕ)) :=
  if h : i < segs.length then
    if (seg_word_count sentences (segs.getD i (0, 0)) : ℤ) < min_words then
      if hp : 0 < i then
        segs :: enforceStates sentences min_words
          ((segs.set (i - 1) ((segs.getD (i - 1) (0, 0)).1, (segs.getD i (0, 0)).2)).eraseIdx i)
          (i - 1)
      else if hn : i + 1 < segs.length then
        segs :: enforceStates sentences min_words
          ((segs.set i ((segs.getD i (0, 0)).1, (segs.getD (i + 1) (0, 0)).2)).eraseIdx (i + 1))
          i
      else
        segs :: enforceStates sentences min_words segs (i + 1)
    else
      segs :: enforceStates sentences min_words segs (i + 1)
  else [segs]
termination_by 2 * segs.length - i
decreasing_by
  · simp only [List.length_eraseIdx, List.length_set, h, if_true]
    omega
  · simp only [List.length_eraseIdx, List.length_set, hn, if_true]
    omega
  · omega
  · omega

/-- `segment_transcript` from `segment_cases_ml.py`, with the external
embedding adapter passed in as a function.  The second component records
whether the adapter was invoked (the code calls it exactly once, on the full
coalesced-unit list, before the similarity profile is computed).  `none`
models an exception escaping the run. -/
noncomputable def segment_transcript (embed : List Str → List (List ℝ))
    (transcript : Str) (merge_min_words : ℤ) (smooth_window : ℤ)
    (sim_threshold : ℝ) (min_segment_words : ℤ) : Option (List Str) × Bool :=
  let sentences := split_into_sentences transcript
  if sentences.length = 0 then (some [], false)
  else
    let merged := merge_short_sentences sentences merge_min_words
    if merged.length ≤ 4 then (some [joinSpace merged], false)
    else
      let sims := cosine_similarities (embed merged)
      match smooth sims smooth_window with
      | none => (none, true)
      | some smoothed =>
        let boundaries := find_boundaries smoothed sim_threshold
        let seg_ranges := enforce_min_segment_length merged boundaries min_segment_words
        (some (seg_ranges.map
          (fun seg => pyStrip (joinSpace ((merged.drop seg.1).take (seg.2 + 1 - seg.1))))), true)

/-- The accumulated buffer produced by a run of consecutive short sentences in
`merge_short_sentences`: each short sentence is appended with a space and the
result re-stripped, exactly as the loop updates `buffer`. -/
def bufferJoin (run : List Str) : Str :=
  run.foldl (fun b s => pyStrip (b ++ ' ' :: s)) []

/-- Adjacency of two inclusive ranges: the second starts right after the first
ends. -/
def SegChain (a b : ℕ × ℕ) : Prop := b.1 = a.2 + 1

/-- The range invariant of the Segment Length Enforcer: the list of inclusive
ranges is nonempty, contiguous, ascending, starts at `0` and ends at `n - 1`,
hence exactly partitions `[0, n-1]`. -/
def Partition (segs : List (ℕ × ℕ)) (n : ℕ) : Prop :=
  segs ≠ [] ∧ List.Chain' SegChain segs ∧ (∀ p ∈ segs, p.1 ≤ p.2) ∧
    (∀ a ∈ segs.head?, a.1 = 0) ∧ (∀ b ∈ segs.getLast?, b.2 + 1 = n)

/-! ## Basic facts about stripping and joining -/

theorem dropWhile_head_not (p : Char → Bool) (l : Str) :
    ∀ c ∈ (l.dropWhile p).head?, p c = false := by
  induction l with
  | nil => simp
  | cons c t ih =>
    by_cases h : p c
    · simpa [List.dropWhile_cons, h] using ih
    · simp [List.dropWhile_cons, h]

theorem mem_dropWhile_of_neg {p : Char → Bool} {l : Str} {c : Char}
    (hc : c ∈ l) (hpc : p c = false) : c ∈ l.dropWhile p := by
  rw [← List.takeWhile_append_dropWhile p l] at hc
  rcases List.mem_append.mp hc with h | h
  · exact absurd (List.mem_takeWhile_imp h) (by simp [hpc])
  · exact h

theorem pyStrip_ne_nil {l : Str} {c : Char} (hc : c ∈ l)
    (hpc : c.isWhitespace = false) : pyStrip l ≠ [] := by
  have h1 : c ∈ l.dropWhile Char.isWhitespace := mem_dropWhile_of_neg hc hpc
  have h2 : c ∈ (l.dropWhile Char.isWhitespace).reverse := List.mem_reverse.mpr h1
  have h3 : c ∈ (l.dropWhile Char.isWhitespace).reverse.dropWhile Char.isWhitespace :=
    mem_dropWhile_of_neg h2 hpc
  intro h
  rw [pyStrip] at h
  rw [List.reverse_eq_nil_iff] at h
  rw [h] at h3
  exact absurd h3 (List.not_mem_nil c)

theorem getLast?_of_suffix {s t : Str} (h : s <:+ t) (hne : s ≠ []) :
    t.getLast? = s.getLast? := by
  obtain ⟨u, rfl⟩ := h
  rw [List.getLast?_append]
  cases hs : s.getLast? with
  | none => exact absurd (List.getLast?_eq_none_iff.mp hs) hne
  | some c => rfl

theorem pyStrip_head (s : Str) :
    ∀ c ∈ (pyStrip s).head?, c.isWhitespace = false := by
  intro c hc
  rw [pyStrip, List.head?_reverse] at hc
  by_cases hne : (s.dropWhile Char.isWhitespace).reverse.dropWhile Char.isWhitespace = []
  · rw [hne] at hc
    exact absurd hc (by simp)
  · rw [← getLast?_of_suffix (List.dropWhile_suffix Char.isWhitespace) hne,
      List.getLast?_reverse] at hc
    exact dropWhile_head_not Char.isWhitespace _ c hc

theorem pyStrip_last (s : Str) :
    ∀ c ∈ (pyStrip s).getLast?, c.isWhitespace = false := by
  intro c hc
  rw [pyStrip, List.getLast?_reverse] at hc
  exact dropWhile_head_not Char.isWhitespace _ c hc

theorem pyStrip_of_ends {s : Str} (hh : ∀ c ∈ s.head?, c.isWhitespace = false)
    (hl : ∀ c ∈ s.getLast?, c.isWhitespace = false) : pyStrip s = s := by
  cases s with
  | nil => rfl
  | cons c t =>
    have h1 : List.dropWhile Char.isWhitespace (c :: t) = c :: t := by
      rw [List.dropWhile_cons, hh c rfl]
      simp
    rw [pyStrip, h1]
    cases hr : (c :: t).reverse with
    | nil => exact absurd hr (by simp)
    | cons d r =>
      have hd : d.isWhitespace = false := by
        apply hl d
        rw [← List.head?_reverse, hr]
        rfl
      rw [List.dropWhile_cons, hd]
      simp only [Bool.false_eq_true, if_false]
      rw [← hr, List.reverse_reverse]

theorem pyStrip_idem (s : Str) : pyStrip (pyStrip s) = pyStrip s :=
  pyStrip_of_ends (pyStrip_head s) (pyStrip_last s)

theorem joinSpace_spec :
    ∀ us : List Str, (∀ u ∈ us, u ≠ [] ∧ pyStrip u = u) → us ≠ [] →
      joinSpace us ≠ [] ∧ pyStrip (joinSpace us) = joinSpace us := by
  intro us
  induction us with
  | nil => intro _ h; exact absurd rfl h
  | cons u rest ih =>
    intro h _
    cases rest with
    | nil => exact ⟨(h u (by simp)).1, (h u (by simp)).2⟩
    | cons v rest2 =>
      have hu := h u (by simp)
      have hJ := ih (fun x hx => h x (by simp [hx])) (by simp)
      rw [joinSpace]
      constructor
      · simp [hu.1]
      · apply pyStrip_of_ends
        · intro c hc
          rw [List.head?_append_of_ne_nil _ hu.1] at hc
          have := pyStrip_head u
          rw [hu.2] at this
          exact this c hc
        · intro c hc
          rw [List.getLast?_append] at hc
          have hJl : (' ' :: joinSpace (v :: rest2)).getLast? =
              (joinSpace (v :: rest2)).getLast? := by
            cases hJ' : joinSpace (v :: rest2) with
            | nil => exact absurd hJ' hJ.1
            | cons j jt => rw [List.getLast?_cons_cons]
          rw [hJl] at hc
          cases hg : (joinSpace (v :: rest2)).getLast? with
          | none => exact absurd (List.getLast?_eq_none_iff.mp hg) hJ.1
          | some d =>
            rw [hg] at hc
            have hwd := pyStrip_last (joinSpace (v :: rest2))
            rw [hJ.2, hg] at hwd
            have hcd : d = c := by simpa using hc
            rw [← hcd]
            exact hwd d rfl

theorem split_units (t : Str) :
    ∀ u ∈ split_into_sentences t, u ≠ [] ∧ pyStrip u = u := by
  intro u hu
  rw [split_into_sentences] at hu
  have h1 := List.of_mem_filter hu
  have h2 := List.mem_of_mem_filter hu
  obtain ⟨x, _, rfl⟩ := List.mem_map.mp h2
  exact ⟨by simpa using h1, pyStrip_idem x⟩

/-! ## Facts about the utterance coalescer -/

theorem bufferJoin_append (run : List Str) (s : Str) :
    bufferJoin (run ++ [s]) = pyStrip (bufferJoin run ++ ' ' :: s) := by
  rw [bufferJoin, bufferJoin, List.foldl_append]
  rfl

theorem bufferJoin_stripped (run : List Str) (h : run ≠ []) :
    pyStrip (bufferJoin run) = bufferJoin run := by
  induction run using List.reverseRecOn with
  | nil => exact absurd rfl h
  | append_singleton l s _ => rw [bufferJoin_append]; exact pyStrip_idem _

theorem mergeGo_units (mw : ℤ) :
    ∀ (rest merged : List Str) (buffer : Str),
      (∀ u ∈ merged, u ≠ [] ∧ pyStrip u = u) →
      (buffer = [] ∨ (buffer ≠ [] ∧ pyStrip buffer = buffer)) →
      (∀ s ∈ rest, s ≠ [] ∧ pyStrip s = s) →
      ∀ u ∈ mergeGo mw merged buffer rest, u ≠ [] ∧ pyStrip u = u := by
  intro rest
  induction rest with
  | nil =>
    intro merged buffer hm hb _ u hu
    rw [mergeGo] at hu
    rcases hb with rfl | ⟨hb1, hb2⟩
    · simp only [ne_eq, not_true_eq_false, if_false, ite_self] at hu
      exact hm u (by simpa using hu)
    · rw [if_pos hb1] at hu
      rcases List.mem_append.mp hu with h | h
      · exact hm u h
      · have : u = pyStrip buffer := by simpa using h
        subst this
        rw [hb2]
        exact ⟨hb1, by rw [hb2]⟩
  | cons s rest ih =>
    intro merged buffer hm hb hr u hu
    rw [mergeGo] at hu
    have hs := hr s (by simp)
    by_cases hshort : (wordCount s : ℤ) < mw
    · rw [if_pos hshort] at hu
      refine ih merged (pyStrip (buffer ++ ' ' :: s)) hm ?_ (fun x hx => hr x (by simp [hx])) u hu
      right
      have hhead := pyStrip_head s
      rw [hs.2] at hhead
      obtain ⟨c, hc⟩ : ∃ c, s.head? = some c := by
        cases hcase : s with
        | nil => exact absurd hcase hs.1
        | cons a l => exact ⟨a, rfl⟩
      have hcmem : c ∈ buffer ++ ' ' :: s := by
        apply List.mem_append_right
        exact List.mem_cons_of_mem _ (List.mem_of_mem_head? hc)
      exact ⟨pyStrip_ne_nil hcmem (hhead c hc), pyStrip_idem _⟩
    · rw [if_neg hshort] at hu
      by_cases hbne : buffer ≠ []
      · rw [if_pos hbne] at hu
        refine ih _ [] ?_ (Or.inl rfl) (fun x hx => hr x (by simp [hx])) u hu
        intro x hx
        rcases List.mem_append.mp hx with h | h
        · exact hm x h
        · rcases hb with rfl | ⟨hb1, hb2⟩
          · exact absurd rfl hbne
          · rcases (by simpa using h : x = pyStrip buffer ∨ x = s) with rfl | rfl
            · rw [hb2]
              exact ⟨hb1, by rw [hb2]⟩
            · exact hs
      · rw [if_neg hbne] at hu
        refine ih _ [] ?_ (Or.inl rfl) (fun x hx => hr x (by simp [hx])) u hu
        intro x hx
        rcases List.mem_append.mp hx with h | h
        · exact hm x h
        · rcases (by simpa using h : x = s) with rfl
          exact hs

theorem mergeGo_ne (mw : ℤ) :
    ∀ (rest merged : List Str) (buffer : Str),
      (∀ s ∈ rest, s ≠ [] ∧ pyStrip s = s) →
      (merged ≠ [] ∨ buffer ≠ [] ∨ rest ≠ []) →
      mergeGo mw merged buffer rest ≠ [] := by
  intro rest
  induction rest with
  | nil =>
    intro merged buffer _ hd
    rw [mergeGo]
    by_cases hb : buffer ≠ []
    · rw [if_pos hb]
      simp
    · rw [if_neg hb]
      rcases hd with h | h | h
      · exact h
      · exact absurd h hb
      · exact absurd rfl h
  | cons s rest ih =>
    intro merged buffer hr _
    rw [mergeGo]
    have hs := hr s (by simp)
    by_cases hshort : (wordCount s : ℤ) < mw
    · rw [if_pos hshort]
      apply ih _ _ (fun x hx => hr x (by simp [hx]))
      right; left
      have hhead := pyStrip_head s
      rw [hs.2] at hhead
      obtain ⟨c, hc⟩ : ∃ c, s.head? = some c := by
        cases hcase : s with
        | nil => exact absurd hcase hs.1
        | cons a l => exact ⟨a, rfl⟩
      have hcmem : c ∈ buffer ++ ' ' :: s := by
        apply List.mem_append_right
        exact List.mem_cons_of_mem _ (List.mem_of_mem_head? hc)
      exact pyStrip_ne_nil hcmem (hhead c hc)
    · rw [if_neg hshort]
      by_cases hbne : buffer ≠ []
      · rw [if_pos hbne]
        exact ih _ _ (fun x hx => hr x (by simp [hx])) (Or.inl (by simp))
      · rw [if_neg hbne]
        exact ih _ _ (fun x hx => hr x (by simp [hx])) (Or.inl (by simp))

theorem merge_units (ss : List Str) (mw : ℤ)
    (h : ∀ s ∈ ss, s ≠ [] ∧ pyStrip s = s) :
    ∀ u ∈ merge_short_sentences ss mw, u ≠ [] ∧ pyStrip u = u :=
  mergeGo_units mw ss [] [] (by simp) (Or.inl rfl) h

theorem merge_ne (ss : List Str) (mw : ℤ) (hne : ss ≠ [])
    (h : ∀ s ∈ ss, s ≠ [] ∧ pyStrip s = s) :
    merge_short_sentences ss mw ≠ [] :=
  mergeGo_ne mw ss [] [] h (Or.inr (Or.inr hne))

theorem merge_nil (mw : ℤ) : merge_short_sentences [] mw = [] := by
  rw [merge_short_sentences, mergeGo]
  simp

theorem mergeGo_runs (mw : ℤ) (ss : List Str) :
    ∀ (rest merged : List Str) (buffer : Str),
      (∀ u ∈ merged, mw ≤ (wordCount u : ℤ) ∨
        ∃ run, run ≠ [] ∧ (∃ pre post, ss = pre ++ run ++ post) ∧
          (∀ s ∈ run, (wordCount s : ℤ) < mw) ∧ u = bufferJoin run) →
      ((buffer = [] ∧ ∃ pre, ss = pre ++ rest) ∨
        ∃ run pre, run ≠ [] ∧ ss = pre ++ run ++ rest ∧
          (∀ s ∈ run, (wordCount s : ℤ) < mw) ∧ buffer = bufferJoin run) →
      ∀ u ∈ mergeGo mw merged buffer rest,
        mw ≤ (wordCount u : ℤ) ∨
        ∃ run, run ≠ [] ∧ (∃ pre post, ss = pre ++ run ++ post) ∧
          (∀ s ∈ run, (wordCount s : ℤ) < mw) ∧ u = bufferJoin run := by
  intro rest
  induction rest with
  | nil =>
    intro merged buffer hm hb u hu
    rw [mergeGo] at hu
    rcases hb with ⟨rfl, _⟩ | ⟨run, pre, hrne, hsplit, hruns, rfl⟩
    · simp only [ne_eq, not_true_eq_false, if_false, ite_self] at hu
      exact hm u (by simpa using hu)
    · by_cases hbne : bufferJoin run ≠ []
      · rw [if_pos hbne] at hu
        rcases List.mem_append.mp hu with h | h
        · exact hm u h
        · rcases (by simpa using h : u = pyStrip (bufferJoin run)) with rfl
          rw [bufferJoin_stripped run hrne]
          exact Or.inr ⟨run, hrne, ⟨pre, [], hsplit⟩, hruns, rfl⟩
      · rw [if_neg hbne] at hu
        exact hm u hu
  | cons s rest ih =>
    intro merged buffer hm hb u hu
    rw [mergeGo] at hu
    by_cases hshort : (wordCount s : ℤ) < mw
    · rw [if_pos hshort] at hu
      refine ih merged _ hm ?_ u hu
      right
      rcases hb with ⟨rfl, pre, hsp⟩ | ⟨run, pre, hrne, hsplit, hruns, rfl⟩
      · refine ⟨[s], pre, by simp, ?_, ?_, ?_⟩
        · rw [hsp]; simp
        · intro x hx
          rcases (by simpa using hx : x = s) with rfl
          exact hshort
        · rw [bufferJoin]; rfl
      · refine ⟨run ++ [s], pre, by simp, ?_, ?_, ?_⟩
        · rw [hsplit]; simp
        · intro x hx
          rcases List.mem_append.mp hx with h | h
          · exact hruns x h
          · rcases (by simpa using h : x = s) with rfl
            exact hshort
        · rw [bufferJoin_append]
    · rw [if_neg hshort] at hu
      have hpre2 : ∃ pre2 : List Str, ss = pre2 ++ rest := by
        rcases hb with ⟨_, pre, hsp⟩ | ⟨run, pre, _, hsplit, _, _⟩
        · exact ⟨pre ++ [s], by rw [hsp]; simp⟩
        · exact ⟨pre ++ run ++ [s], by rw [hsplit]; simp⟩
      by_cases hbne : buffer ≠ []
      · rw [if_pos hbne] at hu
        refine ih _ [] ?_ (Or.inl ⟨rfl, hpre2⟩) u hu
        intro x hx
        rcases List.mem_append.mp hx with h | h
        · exact hm x h
        · rcases hb with ⟨rfl, _⟩ | ⟨run, pre, hrne, hsplit, hruns, rfl⟩
          · exact absurd rfl hbne
          · rcases (by simpa using h : x = pyStrip (bufferJoin run) ∨ x = s) with rfl | rfl
            · rw [bufferJoin_stripped run hrne]
              exact Or.inr ⟨run, hrne, ⟨pre, s :: rest, hsplit⟩, hruns, rfl⟩
            · exact Or.inl (not_lt.mp hshort)
      · rw [if_neg hbne] at hu
        refine ih _ [] ?_ (Or.inl ⟨rfl, hpre2⟩) u hu
        intro x hx
        rcases List.mem_append.mp hx with h | h
        · exact hm x h
        · rcases (by simpa using h : x = s) with rfl
          exact Or.inl (not_lt.mp hshort)

/-! ## Facts about the boundary extractor -/

theorem dedupAdj_of_chain :
    ∀ (xs : List ℕ) (last : ℕ),
      List.Chain' (fun a b => a < b) (last :: xs) → dedupAdj last xs = xs := by
  intro xs
  induction xs with
  | nil => intro last _; rfl
  | cons y ys ih =>
    intro last hch
    rcases List.chain'_cons.mp hch with ⟨hlt, htl⟩
    rw [dedupAdj, if_pos (by omega : (0:ℤ) < (y:ℤ) - (last:ℤ)), ih y htl]

theorem lowIdx_pairwise {α : Type} [LinearOrderedField α] (s : List α) (t : α) :
    List.Pairwise (fun a b => a < b) (lowIdx s t) :=
  List.Pairwise.filter _ (List.pairwise_lt_range _)

theorem find_boundaries_eq {α : Type} [LinearOrderedField α] (s : List α) (t : α) :
    find_boundaries s t = lowIdx s t := by
  rw [find_boundaries]
  cases h : lowIdx s t with
  | nil => rfl
  | cons x xs =>
    have hp : List.Pairwise (fun a b => a < b) (x :: xs) := h ▸ lowIdx_pairwise s t
    show x :: dedupAdj x xs = x :: xs
    rw [dedupAdj_of_chain xs x hp.chain']

theorem find_boundaries_pairwise {α : Type} [LinearOrderedField α] (s : List α) (t : α) :
    List.Pairwise (fun a b => a < b) (find_boundaries s t) := by
  rw [find_boundaries_eq]
  exact lowIdx_pairwise s t

theorem find_boundaries_lt_length {α : Type} [LinearOrderedField α] (s : List α) (t : α) :
    ∀ b ∈ find_boundaries s t, b < s.length := by
  intro b hb
  rw [find_boundaries_eq] at hb
  have := List.mem_of_mem_filter hb
  exact List.mem_range.mp this

theorem length_filter_mono {α : Type} {l : List α} {p q : α → Bool}
    (h : ∀ a ∈ l, p a = true → q a = true) :
    (l.filter p).length ≤ (l.filter q).length := by
  induction l with
  | nil => simp
  | cons a l ih =>
    have hrec := ih (fun x hx hpx => h x (by simp [hx]) hpx)
    simp only [List.filter_cons]
    by_cases hp : p a = true
    · rw [hp, h a (by simp) hp]
      simpa using hrec
    · simp only [hp, if_false]
      cases hq : q a
      · simpa using hrec
      · simp only [if_true]
        calc (l.filter p).length ≤ (l.filter q).length := hrec
        _ ≤ (a :: l.filter q).length := by simp

/-! ## Facts about the smoother -/

theorem smooth_win_le_one {α : Type} [LinearOrderedField α] (a : List α) (w : ℤ)
    (h : w ≤ 1) : smooth a w = some a := by
  rw [smooth.eq_def, if_pos h]

theorem smooth_length_raw {α : Type} [LinearOrderedField α] (a : List α) (w : ℤ)
    (hw : 1 < w) (hne : a ≠ []) :
    ∃ r, smooth a w = some r ∧
      r.length = a.length + 2 * (w / 2).toNat + 1 - w.toNat := by
  cases a with
  | nil => exact absurd rfl hne
  | cons x l =>
    rw [smooth.eq_def, if_neg (not_le.mpr hw)]
    refine ⟨_, rfl, ?_⟩
    simp only [List.length_map, List.length_range, List.length_append,
      List.length_replicate, List.length_cons]
    omega

theorem smooth_odd (α : Type) [LinearOrderedField α] (a : List α) (w : ℤ)
    (hw : 1 < w) (hodd : w % 2 = 1) (hne : a ≠ []) :
    ∃ r, smooth a w = some r ∧ r.length = a.length := by
  obtain ⟨r, hr, hlen⟩ := smooth_length_raw a w hw hne
  exact ⟨r, hr, by omega⟩

theorem smooth_even (α : Type) [LinearOrderedField α] (a : List α) (w : ℤ)
    (hw : 1 < w) (heven : w % 2 = 0) (hne : a ≠ []) :
    ∃ r, smooth a w = some r ∧ r.length = a.length + 1 := by
  obtain ⟨r, hr, hlen⟩ := smooth_length_raw a w hw hne
  exact ⟨r, hr, by omega⟩

theorem smooth_goodw {α : Type} [LinearOrderedField α] (a : List α) (w : ℤ)
    (hw : w ≤ 1 ∨ w % 2 = 1) (hne : a ≠ []) :
    ∃ r, smooth a w = some r ∧ r.length = a.length := by
  by_cases h1 : w ≤ 1
  · exact ⟨a, smooth_win_le_one a w h1, rfl⟩
  · rcases hw with h | h
    · exact absurd h h1
    · exact smooth_odd α a w (not_le.mp h1) h hne

/-! ## The range invariant of the segment length enforcer -/

theorem set_eraseIdx_succ {β : Type} :
    ∀ (l : List β) (j : ℕ) (x : β), j + 1 < l.length →
      (l.set j x).eraseIdx (j + 1) = l.take j ++ x :: l.drop (j + 2) := by
  intro l
  induction l with
  | nil => intro j x h; simp at h
  | cons a t ih =>
    intro j x h
    cases j with
    | zero =>
      cases t with
      | nil => simp at h
      | cons b t2 => rfl
    | succ j =>
      have := ih j x (by simpa using h)
      simp only [List.set_cons_succ, List.eraseIdx_cons_succ, List.take_succ_cons,
        List.drop_succ_cons, this]
      rfl

theorem decompose_two (l : List (ℕ × ℕ)) (j : ℕ) (h : j + 1 < l.length) :
    l = l.take j ++ l.getD j (0, 0) :: l.getD (j + 1) (0, 0) :: l.drop (j + 2) := by
  have h1 : j < l.length := by omega
  conv_lhs => rw [← List.take_append_drop j l]
  rw [List.drop_eq_getElem_cons h1, List.drop_eq_getElem_cons h,
    List.getD_eq_getElem l (0, 0) h1, List.getD_eq_getElem l (0, 0) h]

theorem getLast?_append_cons {β : Type} (l : List β) (x : β) (l2 : List β) :
    (l ++ x :: l2).getLast? = (x :: l2).getLast? := by
  rw [List.getLast?_append]
  cases hc : (x :: l2).getLast? with
  | none => exact absurd (List.getLast?_eq_none_iff.mp hc) (by simp)
  | some c => rfl

theorem partition_glue (l1 l2 : List (ℕ × ℕ)) (a b : ℕ × ℕ) (n : ℕ)
    (h : Partition (l1 ++ a :: b :: l2) n) :
    Partition (l1 ++ (a.1, b.2) :: l2) n := by
  obtain ⟨_, hch, hle, hhd, hlast⟩ := h
  rw [List.chain'_append] at hch
  obtain ⟨hch1, hch2, hlink⟩ := hch
  obtain ⟨hab, hbl⟩ := List.chain'_cons.mp hch2
  obtain ⟨hbh, hl2⟩ := List.chain'_cons'.mp hbl
  refine ⟨by simp, ?_, ?_, ?_, ?_⟩
  · rw [List.chain'_append]
    refine ⟨hch1, ?_, ?_⟩
    · refine List.chain'_cons'.mpr ⟨?_, hl2⟩
      intro y hy
      exact hbh y hy
    · intro x hx y hy
      rcases (by simpa using hy : (a.1, b.2) = y) with rfl
      exact hlink x hx a rfl
  · intro p hp
    rcases List.mem_append.mp hp with hp | hp
    · exact hle p (List.mem_append_left _ hp)
    · rcases List.mem_cons.mp hp with rfl | hp
      · have h1 : a.1 ≤ a.2 := hle a (by simp)
        have h2 : b.1 ≤ b.2 := hle b (by simp)
        have h3 : b.1 = a.2 + 1 := hab
        show a.1 ≤ b.2
        omega
      · exact hle p (by simp [hp])
  · intro x hx
    cases l1 with
    | nil =>
      rcases (by simpa using hx : (a.1, b.2) = x) with rfl
      exact hhd a rfl
    | cons c l1t =>
      exact hhd x (by simpa using hx)
  · intro x hx
    cases hl2e : l2 with
    | nil =>
      subst hl2e
      rw [getLast?_append_cons] at hx hlast
      rcases (by simpa using hx : (a.1, b.2) = x) with rfl
      have := hlast b (by simp)
      simpa using this
    | cons d l2t =>
      subst hl2e
      rw [getLast?_append_cons] at hx
      have hx2 : x ∈ (d :: l2t).getLast? := by
        rw [List.getLast?_cons_cons] at hx
        exact hx
      apply hlast x
      rw [getLast?_append_cons, List.getLast?_cons_cons, List.getLast?_cons_cons]
      exact hx2

theorem buildSegsGo_spec :
    ∀ (bs : List ℕ) (start n : ℕ),
      List.Pairwise (fun a b => a < b) bs →
      (∀ b ∈ bs, start ≤ b ∧ b + 2 ≤ n) →
      start + 1 ≤ n →
      buildSegsGo start bs n ≠ [] ∧
      List.Chain' SegChain (buildSegsGo start bs n) ∧
      (∀ p ∈ buildSegsGo start bs n, p.1 ≤ p.2) ∧
      (∀ a ∈ (buildSegsGo start bs n).head?, a.1 = start) ∧
      (∀ b ∈ (buildSegsGo start bs n).getLast?, b.2 + 1 = n) := by
  intro bs
  induction bs with
  | nil =>
    intro start n _ _ hs
    rw [buildSegsGo]
    refine ⟨by simp, by simp, ?_, ?_, ?_⟩
    · intro p hp
      rcases (by simpa using hp : p = (start, n - 1)) with rfl
      show start ≤ n - 1
      omega
    · intro a ha
      rcases (by simpa using ha : (start, n - 1) = a) with rfl
      rfl
    · intro b hb
      rcases (by simpa using hb : (start, n - 1) = b) with rfl
      show n - 1 + 1 = n
      omega
  | cons b rest ih =>
    intro start n hpw hb hs
    have hbb := hb b (by simp)
    have hrest : ∀ x ∈ rest, b + 1 ≤ x ∧ x + 2 ≤ n := by
      intro x hx
      have h1 : b < x := (List.pairwise_cons.mp hpw).1 x hx
      exact ⟨by omega, (hb x (by simp [hx])).2⟩
    obtain ⟨ine, ich, ile, ihd, ilast⟩ :=
      ih (b + 1) n (hpw.of_cons) hrest (by omega)
    rw [buildSegsGo]
    refine ⟨by simp, ?_, ?_, ?_, ?_⟩
    · refine List.chain'_cons'.mpr ⟨?_, ich⟩
      intro y hy
      show y.1 = b + 1
      exact ihd y hy
    · intro p hp
      rcases List.mem_cons.mp hp with rfl | hp
      · exact hbb.1
      · exact ile p hp
    · intro a ha
      rcases (by simpa using ha : (start, b) = a) with rfl
      rfl
    · intro x hx
      cases hrec : buildSegsGo (b + 1) rest n with
      | nil => exact absurd hrec ine
      | cons c ct =>
        rw [hrec, List.getLast?_cons_cons] at hx
        apply ilast x
        rw [hrec]
        exact hx

theorem buildSegs_partition (bs : List ℕ) (n : ℕ)
    (hpw : List.Pairwise (fun a b => a < b) bs)
    (hb : ∀ b ∈ bs, b + 2 ≤ n) (hn : 1 ≤ n) :
    Partition (buildSegsGo 0 bs n) n := by
  obtain ⟨h1, h2, h3, h4, h5⟩ :=
    buildSegsGo_spec bs 0 n hpw (fun b hbm => ⟨Nat.zero_le b, hb b hbm⟩) (by omega)
  exact ⟨h1, h2, h3, h4, h5⟩

theorem partition_mergeStep (segs : List (ℕ × ℕ)) (j n : ℕ)
    (h : j + 1 < segs.length) (hp : Partition segs n) :
    Partition
      ((segs.set j ((segs.getD j (0, 0)).1, (segs.getD (j + 1) (0, 0)).2)).eraseIdx (j + 1))
      n := by
  rw [set_eraseIdx_succ segs j _ h]
  have hd := decompose_two segs j h
  exact partition_glue _ _ _ _ n (hd ▸ hp)

theorem partition_ranges :
    ∀ (segs : List (ℕ × ℕ)) (s n : ℕ),
      List.Chain' SegChain segs → (∀ p ∈ segs, p.1 ≤ p.2) →
      (∀ a ∈ segs.head?, a.1 = s) → (∀ b ∈ segs.getLast?, b.2 + 1 = n) →
      segs ≠ [] →
      s < n ∧
        (segs.map (fun p => List.range' p.1 (p.2 + 1 - p.1))).flatten =
          List.range' s (n - s) := by
  intro segs
  induction segs with
  | nil => intro s n _ _ _ _ hne; exact absurd rfl hne
  | cons p rest ih =>
    intro s n hch hle hhd hlast _
    have hps : p.1 = s := hhd p rfl
    have hple : p.1 ≤ p.2 := hle p (by simp)
    cases rest with
    | nil =>
      have hpn : p.2 + 1 = n := hlast p rfl
      constructor
      · omega
      · simp only [List.map_cons, List.map_nil, List.flatten_cons, List.flatten_nil,
          List.append_nil]
        rw [hps]
        congr 1
        omega
    | cons q rest2 =>
      obtain ⟨hpq, hch2⟩ := List.chain'_cons.mp hch
      have hq1 : q.1 = p.2 + 1 := hpq
      obtain ⟨hlt, hflat⟩ := ih (p.2 + 1) n hch2
        (fun x hx => hle x (by simp [hx]))
        (by intro a ha; rcases (by simpa using ha : q = a) with rfl; exact hq1)
        (by
          intro x hx
          apply hlast x
          rw [List.getLast?_cons_cons]
          exact hx)
        (by simp)
      constructor
      · omega
      · have hstep : ((p :: q :: rest2).map (fun r => List.range' r.1 (r.2 + 1 - r.1))).flatten =
            List.range' p.1 (p.2 + 1 - p.1) ++
              ((q :: rest2).map (fun r => List.range' r.1 (r.2 + 1 - r.1))).flatten := by
          rw [List.map_cons, List.flatten_cons]
        rw [hstep, hflat, hps]
        have harr : p.2 + 1 = s + (p.2 + 1 - s) := by omega
        calc List.range' s (p.2 + 1 - s) ++ List.range' (p.2 + 1) (n - (p.2 + 1)) =
            List.range' s (p.2 + 1 - s) ++ List.range' (s + 1 * (p.2 + 1 - s)) (n - (p.2 + 1)) := by
              rw [one_mul, ← harr]
        _ = List.range' s (n - (p.2 + 1) + (p.2 + 1 - s)) := List.range'_append s _ _ 1
        _ = List.range' s (n - s) := by congr 1; omega

theorem partition_mem_bound {segs : List (ℕ × ℕ)} {n : ℕ} (hp : Partition segs n) :
    ∀ p ∈ segs, p.1 ≤ p.2 ∧ p.2 < n := by
  obtain ⟨hne, hch, hle, hhd, hlast⟩ := hp
  obtain ⟨h0, hflat⟩ := partition_ranges segs 0 n hch hle hhd hlast hne
  intro p hp
  refine ⟨hle p hp, ?_⟩
  have hmem : p.2 ∈ (segs.map (fun p => List.range' p.1 (p.2 + 1 - p.1))).flatten := by
    rw [List.mem_flatten]
    refine ⟨List.range' p.1 (p.2 + 1 - p.1), List.mem_map_of_mem _ hp, ?_⟩
    rw [List.mem_range'_1]
    have := hle p hp
    omega
  rw [hflat] at hmem
  rw [List.mem_range'_1] at hmem
  omega

theorem getD_set_ne (l : List (ℕ × ℕ)) (k j : ℕ) (x d : ℕ × ℕ) (hne : k ≠ j) :
    (l.set k x).getD j d = l.getD j d := by
  by_cases hj : j < l.length
  · rw [List.getD_eq_getElem _ _ (by simpa using hj), List.getD_eq_getElem _ _ hj]
    exact List.getElem_set_ne hne _
  · rw [List.getD_eq_default _ _ (by simpa using not_lt.mp hj),
      List.getD_eq_default _ _ (not_lt.mp hj)]

theorem getD_eraseIdx_lt (l : List (ℕ × ℕ)) (k j : ℕ) (d : ℕ × ℕ) (hjk : j < k)
    (hk : k ≤ l.length) : (l.eraseIdx k).getD j d = l.getD j d := by
  rw [List.eraseIdx_eq_take_drop_succ]
  have hlen : j < (l.take k).length := by
    rw [List.length_take]
    omega
  rw [List.getD_append _ _ _ _ hlen, List.getD_eq_getElem _ _ hlen,
    List.getD_eq_getElem _ _ (by rw [List.length_take] at hlen; omega : j < l.length)]
  exact List.getElem_take l

theorem enforceLoop_partition (sentences : List Str) (mw : ℤ) (n : ℕ) :
    ∀ (segs : List (ℕ × ℕ)) (i : ℕ), Partition segs n →
      Partition (enforceLoop sentences mw segs i) n := by
  intro segs i
  induction segs, i using enforceLoop.induct sentences mw with
  | case1 segs i h hshort hp ih =>
    intro hpart
    rw [enforceLoop, dif_pos h, if_pos hshort, dif_pos hp]
    apply ih
    obtain ⟨j, rfl⟩ : ∃ j, i = j + 1 := ⟨i - 1, by omega⟩
    simpa using partition_mergeStep segs j n (by omega) hpart
  | case2 segs i h hshort hp hn ih =>
    intro hpart
    rw [enforceLoop, dif_pos h, if_pos hshort, dif_neg hp, dif_pos hn]
    exact ih (partition_mergeStep segs i n hn hpart)
  | case3 segs i h hshort hp hn ih =>
    intro hpart
    rw [enforceLoop, dif_pos h, if_pos hshort, dif_neg hp, dif_neg hn]
    exact ih hpart
  | case4 segs i h hshort ih =>
    intro hpart
    rw [enforceLoop, dif_pos h, if_neg hshort]
    exact ih hpart
  | case5 segs i h =>
    intro hpart
    rw [enforceLoop, dif_neg h]
    exact hpart

theorem enforceStates_head (sentences : List Str) (mw : ℤ) (segs : List (ℕ × ℕ))
    (i : ℕ) : (enforceStates sentences mw segs i).head? = some segs := by
  rw [enforceStates]
  by_cases h : i < segs.length
  · rw [dif_pos h]
    by_cases h2 : (seg_word_count sentences (segs.getD i (0, 0)) : ℤ) < mw
    · rw [if_pos h2]
      by_cases h3 : 0 < i
      · rw [dif_pos h3]; rfl
      · rw [dif_neg h3]
        by_cases h4 : i + 1 < segs.length
        · rw [dif_pos h4]; rfl
        · rw [dif_neg h4]; rfl
    · rw [if_neg h2]; rfl
  · rw [dif_neg h]; rfl

theorem enforceStates_partition (sentences : List Str) (mw : ℤ) (n : ℕ) :
    ∀ (segs : List (ℕ × ℕ)) (i : ℕ), Partition segs n →
      ∀ st ∈ enforceStates sentences mw segs i, Partition st n := by
  intro segs i
  induction segs, i using enforceStates.induct sentences mw with
  | case1 segs i h hshort hp ih =>
    intro hpart st hst
    rw [enforceStates, dif_pos h, if_pos hshort, dif_pos hp] at hst
    rcases List.mem_cons.mp hst with rfl | hst
    · exact hpart
    · refine ih ?_ st hst
      obtain ⟨j, rfl⟩ : ∃ j, i = j + 1 := ⟨i - 1, by omega⟩
      simpa using partition_mergeStep segs j n (by omega) hpart
  | case2 segs i h hshort hp hn ih =>
    intro hpart st hst
    rw [enforceStates, dif_pos h, if_pos hshort, dif_neg hp, dif_pos hn] at hst
    rcases List.mem_cons.mp hst with rfl | hst
    · exact hpart
    · exact ih (partition_mergeStep segs i n hn hpart) st hst
  | case3 segs i h hshort hp hn ih =>
    intro hpart st hst
    rw [enforceStates, dif_pos h, if_pos hshort, dif_neg hp, dif_neg hn] at hst
    rcases List.mem_cons.mp hst with rfl | hst
    · exact hpart
    · exact ih hpart st hst
  | case4 segs i h hshort ih =>
    intro hpart st hst
    rw [enforceStates, dif_pos h, if_neg hshort] at hst
    rcases List.mem_cons.mp hst with rfl | hst
    · exact hpart
    · exact ih hpart st hst
  | case5 segs i h =>
    intro hpart st hst
    rw [enforceStates, dif_neg h] at hst
    rcases (by simpa using hst : st = segs) with rfl
    exact hpart

theorem enforceStates_bound (sentences : List Str) (mw : ℤ) :
    ∀ (segs : List (ℕ × ℕ)) (i : ℕ),
      (enforceStates sentences mw segs i).length ≤ 2 * segs.length - i + 1 := by
  intro segs i
  induction segs, i using enforceStates.induct sentences mw with
  | case1 segs i h hshort hp ih =>
    rw [enforceStates, dif_pos h, if_pos hshort, dif_pos hp]
    have hlen : ((segs.set (i - 1) ((segs.getD (i - 1) (0, 0)).1,
        (segs.getD i (0, 0)).2)).eraseIdx i).length = segs.length - 1 := by
      simp [List.length_eraseIdx, List.length_set, h]
    rw [List.length_cons]
    rw [hlen] at ih
    omega
  | case2 segs i h hshort hp hn ih =>
    rw [enforceStates, dif_pos h, if_pos hshort, dif_neg hp, dif_pos hn]
    have hlen : ((segs.set i ((segs.getD i (0, 0)).1,
        (segs.getD (i + 1) (0, 0)).2)).eraseIdx (i + 1)).length = segs.length - 1 := by
      simp [List.length_eraseIdx, List.length_set, hn]
    rw [List.length_cons]
    rw [hlen] at ih
    omega
  | case3 segs i h hshort hp hn ih =>
    rw [enforceStates, dif_pos h, if_pos hshort, dif_neg hp, dif_neg hn]
    rw [List.length_cons]
    omega
  | case4 segs i h hshort ih =>
    rw [enforceStates, dif_pos h, if_neg hshort]
    rw [List.length_cons]
    omega
  | case5 segs i h =>
    rw [enforceStates, dif_neg h]
    simp

theorem enforceStates_min_len (sentences : List Str) (mw : ℤ) :
    ∀ (segs : List (ℕ × ℕ)) (i : ℕ), 1 ≤ segs.length →
      ∀ st ∈ enforceStates sentences mw segs i, 1 ≤ st.length := by
  intro segs i
  induction segs, i using enforceStates.induct sentences mw with
  | case1 segs i h hshort hp ih =>
    intro h1 st hst
    rw [enforceStates, dif_pos h, if_pos hshort, dif_pos hp] at hst
    rcases List.mem_cons.mp hst with rfl | hst
    · exact h1
    · refine ih ?_ st hst
      simp only [List.length_eraseIdx, List.length_set, h, if_true]
      omega
  | case2 segs i h hshort hp hn ih =>
    intro h1 st hst
    rw [enforceStates, dif_pos h, if_pos hshort, dif_neg hp, dif_pos hn] at hst
    rcases List.mem_cons.mp hst with rfl | hst
    · exact h1
    · refine ih ?_ st hst
      simp only [List.length_eraseIdx, List.length_set, hn, if_true]
      omega
  | case3 segs i h hshort hp hn ih =>
    intro h1 st hst
    rw [enforceStates, dif_pos h, if_pos hshort, dif_neg hp, dif_neg hn] at hst
    rcases List.mem_cons.mp hst with rfl | hst
    · exact h1
    · exact ih h1 st hst
  | case4 segs i h hshort ih =>
    intro h1 st hst
    rw [enforceStates, dif_pos h, if_neg hshort] at hst
    rcases List.mem_cons.mp hst with rfl | hst
    · exact h1
    · exact ih h1 st hst
  | case5 segs i h =>
    intro h1 st hst
    rw [enforceStates, dif_neg h] at hst
    rcases (by simpa using hst : st = segs) with rfl
    exact h1

theorem enforceStates_chain (sentences : List Str) (mw : ℤ) :
    ∀ (segs : List (ℕ × ℕ)) (i : ℕ),
      List.Chain' (fun a b => b.length ≤ a.length) (enforceStates sentences mw segs i) := by
  intro segs i
  induction segs, i using enforceStates.induct sentences mw with
  | case1 segs i h hshort hp ih =>
    rw [enforceStates, dif_pos h, if_pos hshort, dif_pos hp]
    refine List.chain'_cons'.mpr ⟨?_, ih⟩
    intro y hy
    rw [enforceStates_head] at hy
    rcases (by simpa using hy : _ = y) with rfl
    simp only [List.length_eraseIdx, List.length_set, h, if_true]
    omega
  | case2 segs i h hshort hp hn ih =>
    rw [enforceStates, dif_pos h, if_pos hshort, dif_neg hp, dif_pos hn]
    refine List.chain'_cons'.mpr ⟨?_, ih⟩
    intro y hy
    rw [enforceStates_head] at hy
    rcases (by simpa using hy : _ = y) with rfl
    simp only [List.length_eraseIdx, List.length_set, hn, if_true]
    omega
  | case3 segs i h hshort hp hn ih =>
    rw [enforceStates, dif_pos h, if_pos hshort, dif_neg hp, dif_neg hn]
    refine List.chain'_cons'.mpr ⟨?_, ih⟩
    intro y hy
    rw [enforceStates_head] at hy
    rcases (by simpa using hy : _ = y) with rfl
    exact le_refl _
  | case4 segs i h hshort ih =>
    rw [enforceStates, dif_pos h, if_neg hshort]
    refine List.chain'_cons'.mpr ⟨?_, ih⟩
    intro y hy
    rw [enforceStates_head] at hy
    rcases (by simpa using hy : _ = y) with rfl
    exact le_refl _
  | case5 segs i h =>
    rw [enforceStates, dif_neg h]
    simp

theorem enforceLoop_post (sentences : List Str) (mw : ℤ) :
    ∀ (segs : List (ℕ × ℕ)) (i : ℕ),
      (segs.length = 1 ∨ ∀ j, j < i → j < segs.length →
        mw ≤ (seg_word_count sentences (segs.getD j (0, 0)) : ℤ)) →
      ((enforceLoop sentences mw segs i).length = 1 ∨
        ∀ p ∈ enforceLoop sentences mw segs i,
          mw ≤ (seg_word_count sentences p : ℤ)) := by
  intro segs i
  induction segs, i using enforceLoop.induct sentences mw with
  | case1 segs i h hshort hp ih =>
    intro hpre
    rw [enforceLoop, dif_pos h, if_pos hshort, dif_pos hp]
    apply ih
    right
    intro j hj hj2
    have hpre2 : ∀ j, j < i → j < segs.length →
        mw ≤ (seg_word_count sentences (segs.getD j (0, 0)) : ℤ) := by
      rcases hpre with h1 | h1
      · intro j hj hj2; omega
      · exact h1
    have hjlt : j < i - 1 := hj
    have hset : ((segs.set (i - 1) ((segs.getD (i - 1) (0, 0)).1,
        (segs.getD i (0, 0)).2)).eraseIdx i).getD j (0, 0) = segs.getD j (0, 0) := by
      rw [getD_eraseIdx_lt _ i j (0, 0) (by omega) (by simp [List.length_set]; omega),
        getD_set_ne _ _ _ _ _ (by omega)]
    rw [hset]
    exact hpre2 j (by omega) (by
      simp only [List.length_eraseIdx, List.length_set, h, if_true] at hj2
      omega)
  | case2 segs i h hshort hp hn ih =>
    intro _
    rw [enforceLoop, dif_pos h, if_pos hshort, dif_neg hp, dif_pos hn]
    apply ih
    right
    intro j hj hj2
    omega
  | case3 segs i h hshort hp hn ih =>
    intro _
    rw [enforceLoop, dif_pos h, if_pos hshort, dif_neg hp, dif_neg hn]
    apply ih
    left
    omega
  | case4 segs i h hshort ih =>
    intro hpre
    rw [enforceLoop, dif_pos h, if_neg hshort]
    apply ih
    rcases hpre with h1 | h1
    · exact Or.inl h1
    · right
      intro j hj hj2
      by_cases hji : j < i
      · exact h1 j hji hj2
      · have : j = i := by omega
        subst this
        exact not_lt.mp hshort
  | case5 segs i h =>
    intro hpre
    rw [enforceLoop, dif_neg h]
    rcases hpre with h1 | h1
    · exact Or.inl h1
    · right
      intro p hpmem
      obtain ⟨j, hj, rfl⟩ := List.mem_iff_getElem.mp hpmem
      rw [← List.getD_eq_getElem segs (0, 0) hj]
      exact h1 j (by omega) hj

/-! ## Behavior at nonpositive parameter values and the degenerate paths -/

theorem mergeGo_nonpos (mw : ℤ) (hmw : mw ≤ 0) :
    ∀ (rest merged : List Str), mergeGo mw merged [] rest = merged ++ rest := by
  intro rest
  induction rest with
  | nil => intro merged; rw [mergeGo]; simp
  | cons s rest ih =>
    intro merged
    rw [mergeGo, if_neg (by omega : ¬ (wordCount s : ℤ) < mw)]
    rw [if_neg (by simp), ih]
    simp

theorem merge_nonpos (ss : List Str) (mw : ℤ) (hmw : mw ≤ 0) :
    merge_short_sentences ss mw = ss := by
  rw [merge_short_sentences, mergeGo_nonpos mw hmw]
  rfl

theorem enforceLoop_nonpos (sentences : List Str) (mw : ℤ) (hmw : mw ≤ 0) :
    ∀ (segs : List (ℕ × ℕ)) (i : ℕ), enforceLoop sentences mw segs i = segs := by
  intro segs i
  induction segs, i using enforceLoop.induct sentences mw with
  | case1 segs i h hshort hp ih => exact absurd hshort (by omega)
  | case2 segs i h hshort hp hn ih => exact absurd hshort (by omega)
  | case3 segs i h hshort hp hn ih => exact absurd hshort (by omega)
  | case4 segs i h hshort ih => rw [enforceLoop, dif_pos h, if_neg hshort]; exact ih
  | case5 segs i h => rw [enforceLoop, dif_neg h]

theorem enforce_nonpos (sentences : List Str) (boundaries : List ℕ) (mw : ℤ)
    (hmw : mw ≤ 0) :
    enforce_min_segment_length sentences boundaries mw =
      buildSegsGo 0 boundaries sentences.length := by
  rw [enforce_min_segment_length, enforceLoop_nonpos sentences mw hmw]

theorem split_empty (t : Str) (h : pyStrip t = []) : split_into_sentences t = [] := by
  rw [split_into_sentences, h]
  rfl

theorem segment_transcript_empty (embed : List Str → List (List ℝ)) (t : Str)
    (m w : ℤ) (th : ℝ) (sw : ℤ) (h : pyStrip t = []) :
    segment_transcript embed t m w th sw = (some [], false) := by
  have hs := split_empty t h
  simp only [segment_transcript]
  rw [hs]
  rfl

theorem segment_transcript_short (embed : List Str → List (List ℝ)) (t : Str)
    (m w : ℤ) (th : ℝ) (sw : ℤ)
    (h1 : 1 ≤ (merge_short_sentences (split_into_sentences t) m).length)
    (h4 : (merge_short_sentences (split_into_sentences t) m).length ≤ 4) :
    segment_transcript embed t m w th sw =
      (some [joinSpace (merge_short_sentences (split_into_sentences t) m)], false) := by
  have hlen0 : ¬ (split_into_sentences t).length = 0 := by
    intro h0
    rw [List.length_eq_zero] at h0
    rw [h0, merge_nil] at h1
    simp at h1
  simp only [segment_transcript]
  rw [if_neg hlen0, if_pos h4]

theorem buildSegsGo_ne (start : ℕ) (bs : List ℕ) (n : ℕ) :
    buildSegsGo start bs n ≠ [] := by
  cases bs <;> simp [buildSegsGo]

/-! ## The claims -/

/-- Claim C1, counterexample: with `merge_min_words = 6` and the sentences
`"hi"` and `"a b c d e f"`, the coalescer emits two units, and the first —
not a final remainder — has only one word, fewer than `merge_min_words`. -/
theorem claim_C1_cex :
    (merge_short_sentences [['h','i'], ['a',' ','b',' ','c',' ','d',' ','e',' ','f']] 6).length = 2 ∧
    (wordCount ((merge_short_sentences [['h','i'],
      ['a',' ','b',' ','c',' ','d',' ','e',' ','f']] 6).getD 0 []) : ℤ) < 6 := by
  exact ⟨by decide, by decide⟩

/-- Claim C1, amended: every unit emitted by `merge_short_sentences` either
has at least `merge_min_words` words or is the buffer-join of a nonempty run
of consecutive input sentences each having fewer than `merge_min_words`
words; such coalesced units can appear anywhere in the output, not only at
the end. -/
theorem claim_C1 (sentences : List Str) (mw : ℤ) :
    ∀ u ∈ merge_short_sentences sentences mw,
      mw ≤ (wordCount u : ℤ) ∨
      ∃ run, run ≠ [] ∧ (∃ pre post, sentences = pre ++ run ++ post) ∧
        (∀ s ∈ run, (wordCount s : ℤ) < mw) ∧ u = bufferJoin run := by
  intro u hu
  exact mergeGo_runs mw sentences sentences [] [] (by simp) (Or.inl ⟨rfl, [], rfl⟩) u hu

theorem claim_C1_witness :
    (['h','i'] ∈ merge_short_sentences
      [['h','i'], ['a',' ','b',' ','c',' ','d',' ','e',' ','f']] 6) ∧
    (6 ≤ (wordCount ['h','i'] : ℤ) ∨
      ∃ run, run ≠ [] ∧
        (∃ pre post, ([['h','i'], ['a',' ','b',' ','c',' ','d',' ','e',' ','f']] : List Str) =
          pre ++ run ++ post) ∧
        (∀ s ∈ run, (wordCount s : ℤ) < 6) ∧ ['h','i'] = bufferJoin run) :=
  ⟨by decide, claim_C1 _ 6 _ (by decide)⟩

/-- Claim C2, counterexample: an even window does not preserve the series
length — `smooth` applied to a one-element series with `window = 2` returns a
two-element series. -/
theorem claim_C2_cex :
    (smooth ([1] : List ℚ) 2).map List.length = some 2 ∧
    ([(1 : ℚ)] : List ℚ).length = 1 :=
  ⟨by decide, by decide⟩

/-- Claim C2, amended: `smooth` with `window ≤ 1` returns the input
unchanged; an odd window `> 1` preserves the length of a nonempty series; an
even window `> 1` returns a series one element longer than a nonempty
input. -/
theorem claim_C2 :
    (∀ (a : List ℚ) (w : ℤ), w ≤ 1 → smooth a w = some a) ∧
    (∀ (a : List ℚ) (w : ℤ), 1 < w → w % 2 = 1 → a ≠ [] →
      ∃ r, smooth a w = some r ∧ r.length = a.length) ∧
    (∀ (a : List ℚ) (w : ℤ), 1 < w → w % 2 = 0 → a ≠ [] →
      ∃ r, smooth a w = some r ∧ r.length = a.length + 1) :=
  ⟨fun a w h => smooth_win_le_one a w h,
   fun a w h1 h2 h3 => smooth_odd ℚ a w h1 h2 h3,
   fun a w h1 h2 h3 => smooth_even ℚ a w h1 h2 h3⟩

theorem claim_C2_witness :
    (smooth ([5] : List ℚ) 1 = some [5]) ∧
    (∃ r, smooth ([2, 4, 6] : List ℚ) 3 = some r ∧ r.length = 3) ∧
    (∃ r, smooth ([2] : List ℚ) 2 = some r ∧ r.length = 2) :=
  ⟨claim_C2.1 [5] 1 (by decide),
   claim_C2.2.1 [2, 4, 6] 3 (by decide) (by decide) (by decide),
   claim_C2.2.2 [2] 2 (by decide) (by decide) (by decide)⟩

/-- Claim C3, counterexample: a call with `merge_min_words`, `smooth_window`
and `min_segment_words` all negative is not rejected — `segment_transcript`
processes the transcript and returns a segment list. -/
theorem claim_C3_cex :
    segment_transcript (fun _ => []) ['H','i','.'] (-1) (-1) 0 (-1) =
      (some [['H','i','.']], false) := by
  decide

/-- Claim C3, amended: `segment_transcript` performs no parameter
validation; a negative `merge_min_words` disables coalescing, a negative
`smooth_window` makes smoothing the identity, and a negative
`min_segment_words` makes the length enforcer return the materialized ranges
unchanged — processing proceeds in all cases. -/
theorem claim_C3 :
    (∀ (ss : List Str) (mw : ℤ), mw < 0 → merge_short_sentences ss mw = ss) ∧
    (∀ (a : List ℝ) (w : ℤ), w < 0 → smooth a w = some a) ∧
    (∀ (sentences : List Str) (boundaries : List ℕ) (mw : ℤ), mw < 0 →
      enforce_min_segment_length sentences boundaries mw =
        buildSegsGo 0 boundaries sentences.length) :=
  ⟨fun ss mw h => merge_nonpos ss mw (by omega),
   fun a w h => smooth_win_le_one a w (by omega),
   fun s b mw h => enforce_nonpos s b mw (by omega)⟩

theorem claim_C3_witness :
    (merge_short_sentences [['h','i']] (-1) = [['h','i']]) ∧
    (smooth ([0] : List ℝ) (-1) = some [0]) ∧
    (enforce_min_segment_length [['h','i']] [] (-1) = buildSegsGo 0 [] 1) :=
  ⟨claim_C3.1 _ _ (by decide), claim_C3.2.1 _ _ (by decide),
   claim_C3.2.2 [['h','i']] [] _ (by decide)⟩

/-- Claim C4: after the enforcer finishes, either exactly one range remains,
or every remaining range has word count at least `min_segment_words`. -/
theorem claim_C4 (sentences : List Str) (boundaries : List ℕ) (mw : ℤ) :
    (enforce_min_segment_length sentences boundaries mw).length = 1 ∨
    ∀ p ∈ enforce_min_segment_length sentences boundaries mw,
      mw ≤ (seg_word_count sentences p : ℤ) := by
  rw [enforce_min_segment_length]
  exact enforceLoop_post sentences mw _ 0
    (Or.inr (fun j hj _ => absurd hj (Nat.not_lt_zero j)))

theorem claim_C4_witness :
    (enforce_min_segment_length [['a'], ['b']] [0] 35).length = 1 ∨
    ∀ p ∈ enforce_min_segment_length [['a'], ['b']] [0] 35,
      35 ≤ (seg_word_count [['a'], ['b']] p : ℤ) :=
  claim_C4 [['a'], ['b']] [0] 35

/-- Claim C5: for a unit list of length `n ≥ 1` and a strictly ascending
boundary list with entries in `[0, n-2]`, every state of the enforcer's range
list — the initial materialization and the state after every merge or scan
step — is a contiguous ascending partition of `[0, n-1]`: consecutive ranges
are adjacent, the first starts at `0`, the last ends at `n - 1`, and the
flattened index ranges are exactly `0, …, n-1`, so no unit is dropped or
duplicated. -/
theorem claim_C5 (sentences : List Str) (boundaries : List ℕ) (mw : ℤ)
    (hn : 1 ≤ sentences.length)
    (hpw : List.Pairwise (fun a b => a < b) boundaries)
    (hb : ∀ b ∈ boundaries, b + 2 ≤ sentences.length) :
    ∀ st ∈ enforceStates sentences mw (buildSegsGo 0 boundaries sentences.length) 0,
      Partition st sentences.length ∧
        (st.map (fun p => List.range' p.1 (p.2 + 1 - p.1))).flatten =
          List.range' 0 sentences.length := by
  intro st hst
  have hp0 := buildSegs_partition boundaries sentences.length hpw hb hn
  have hp := enforceStates_partition sentences mw sentences.length _ 0 hp0 st hst
  refine ⟨hp, ?_⟩
  obtain ⟨hne, hch, hle, hhd, hlast⟩ := hp
  have hr := (partition_ranges st 0 sentences.length hch hle hhd hlast hne).2
  simpa using hr

theorem claim_C5_witness :
    Partition (buildSegsGo 0 [0] 3) 3 ∧
      ((buildSegsGo 0 [0] 3).map (fun p => List.range' p.1 (p.2 + 1 - p.1))).flatten =
        List.range' 0 3 :=
  claim_C5 [['a'], ['b'], ['c']] [0] 35 (by decide) (by decide) (by decide)
    (buildSegsGo 0 [0] 3)
    (List.mem_of_mem_head? (by rw [enforceStates_head]; rfl))

/-- Claim C6: the merge-compaction loop terminates — its state trace has at
most `2 * (number of initial ranges) + 1` entries, every state keeps at least
one range, and the range count never increases along the trace (each merge
strictly decreases it). -/
theorem claim_C6 (sentences : List Str) (boundaries : List ℕ) (mw : ℤ) :
    (enforceStates sentences mw (buildSegsGo 0 boundaries sentences.length) 0).length ≤
      2 * (buildSegsGo 0 boundaries sentences.length).length + 1 ∧
    (∀ st ∈ enforceStates sentences mw (buildSegsGo 0 boundaries sentences.length) 0,
      1 ≤ st.length) ∧
    List.Chain' (fun a b => b.length ≤ a.length)
      (enforceStates sentences mw (buildSegsGo 0 boundaries sentences.length) 0) := by
  refine ⟨?_, ?_, enforceStates_chain sentences mw _ 0⟩
  · have hb := enforceStates_bound sentences mw (buildSegsGo 0 boundaries sentences.length) 0
    omega
  · exact enforceStates_min_len sentences mw _ 0
      (List.length_pos.mpr (buildSegsGo_ne 0 boundaries sentences.length))

theorem claim_C6_witness :
    (enforceStates [['a'], ['b']] 35 (buildSegsGo 0 [0] 2) 0).length ≤
      2 * (buildSegsGo 0 [0] 2).length + 1 ∧
    (∀ st ∈ enforceStates [['a'], ['b']] 35 (buildSegsGo 0 [0] 2) 0, 1 ≤ st.length) ∧
    List.Chain' (fun a b => b.length ≤ a.length)
      (enforceStates [['a'], ['b']] 35 (buildSegsGo 0 [0] 2) 0) :=
  claim_C6 [['a'], ['b']] [0] 35

/-- Claim C7: raising the threshold never decreases the number of candidate
boundaries produced by `find_boundaries` on the same series. -/
theorem claim_C7 (s : List ℚ) (t1 t2 : ℚ) (h : t1 ≤ t2) :
    (find_boundaries s t1).length ≤ (find_boundaries s t2).length := by
  rw [find_boundaries_eq, find_boundaries_eq]
  apply length_filter_mono
  intro a _ hpa
  rw [decide_eq_true_eq] at hpa ⊢
  exact lt_of_lt_of_le hpa h

theorem claim_C7_witness :
    ((0 : ℚ) ≤ 1) ∧
    (find_boundaries ([0, 5] : List ℚ) 0).length ≤
      (find_boundaries ([0, 5] : List ℚ) 1).length :=
  ⟨by decide, claim_C7 [0, 5] 0 1 (by decide)⟩

/-- Claim C8: when the coalesced unit count is between 1 and 4, the core
returns the single space-joined segment and never invokes the embedding
adapter (the invocation flag is `false`, and the result does not depend on
`embed`). -/
theorem claim_C8 (embed : List Str → List (List ℝ)) (t : Str) (m w : ℤ)
    (th : ℝ) (sw : ℤ)
    (h1 : 1 ≤ (merge_short_sentences (split_into_sentences t) m).length)
    (h4 : (merge_short_sentences (split_into_sentences t) m).length ≤ 4) :
    segment_transcript embed t m w th sw =
      (some [joinSpace (merge_short_sentences (split_into_sentences t) m)], false) :=
  segment_transcript_short embed t m w th sw h1 h4

theorem claim_C8_witness :
    (1 ≤ (merge_short_sentences (split_into_sentences ['H','i','.']) 6).length) ∧
    ((merge_short_sentences (split_into_sentences ['H','i','.']) 6).length ≤ 4) ∧
    segment_transcript (fun _ => []) ['H','i','.'] 6 3 0 35 =
      (some [joinSpace (merge_short_sentences (split_into_sentences ['H','i','.']) 6)], false) :=
  ⟨by decide, by decide, claim_C8 (fun _ => []) ['H','i','.'] 6 3 0 35 (by decide) (by decide)⟩

/-- Claim C9: an empty or whitespace-only transcript tokenizes to the empty
sentence sequence, and `segment_transcript` returns the empty segment list
without invoking the embedding adapter. -/
theorem claim_C9 (embed : List Str → List (List ℝ)) (t : Str) (m w : ℤ)
    (th : ℝ) (sw : ℤ) (h : pyStrip t = []) :
    split_into_sentences t = [] ∧
      segment_transcript embed t m w th sw = (some [], false) :=
  ⟨split_empty t h, segment_transcript_empty embed t m w th sw h⟩

theorem claim_C9_witness :
    (pyStrip [' ', '\t'] = []) ∧
    (split_into_sentences [' ', '\t'] = [] ∧
      segment_transcript (fun _ => []) [' ', '\t'] 6 3 0 35 = (some [], false)) :=
  ⟨by decide, claim_C9 (fun _ => []) [' ', '\t'] 6 3 0 35 (by decide)⟩

theorem cosine_length (es : List (List ℝ)) :
    (cosine_similarities es).length = es.length - 1 := by
  rw [cosine_similarities, List.length_map, List.length_zip, List.length_tail]
  omega

/-- Claim C10, amended: when the tokenizer yields at least one sentence, the
embedding adapter honors its one-vector-per-unit contract, and the smoothing
window is odd or at most 1, `segment_transcript` returns at least one
segment, and every returned segment is a nonempty string equal to its own
strip. -/
theorem claim_C10 (embed : List Str → List (List ℝ)) (t : Str) (m w : ℤ)
    (th : ℝ) (sw : ℤ)
    (hne : split_into_sentences t ≠ [])
    (hembed : (embed (merge_short_sentences (split_into_sentences t) m)).length =
      (merge_short_sentences (split_into_sentences t) m).length)
    (hw : w ≤ 1 ∨ w % 2 = 1) :
    ∃ segs, (segment_transcript embed t m w th sw).1 = some segs ∧ segs ≠ [] ∧
      ∀ s ∈ segs, s ≠ [] ∧ pyStrip s = s := by
  have hunits := merge_units (split_into_sentences t) m (split_units t)
  have hmne := merge_ne (split_into_sentences t) m hne (split_units t)
  by_cases h4 : (merge_short_sentences (split_into_sentences t) m).length ≤ 4
  · rw [segment_transcript_short embed t m w th sw (List.length_pos.mpr hmne) h4]
    obtain ⟨hjne, hjstr⟩ := joinSpace_spec _ hunits hmne
    refine ⟨[joinSpace (merge_short_sentences (split_into_sentences t) m)], rfl, by simp, ?_⟩
    intro s hs
    rcases (by simpa using hs :
      s = joinSpace (merge_short_sentences (split_into_sentences t) m)) with rfl
    exact ⟨hjne, hjstr⟩
  · have hlen0 : ¬ (split_into_sentences t).length = 0 := fun h0 =>
      hne (List.length_eq_zero.mp h0)
    have hn5 : 4 < (merge_short_sentences (split_into_sentences t) m).length :=
      not_le.mp h4
    have hsimlen :
        (cosine_similarities (embed (merge_short_sentences (split_into_sentences t) m))).length =
          (merge_short_sentences (split_into_sentences t) m).length - 1 := by
      rw [cosine_length, hembed]
    have hsimne :
        cosine_similarities (embed (merge_short_sentences (split_into_sentences t) m)) ≠ [] := by
      apply List.length_pos.mp
      omega
    obtain ⟨smoothed, hsm, hsmlen⟩ :=
      smooth_goodw (cosine_similarities (embed (merge_short_sentences (split_into_sentences t) m)))
        w hw hsimne
    have hbnds : ∀ b ∈ find_boundaries smoothed th,
        b + 2 ≤ (merge_short_sentences (split_into_sentences t) m).length := by
      intro b hb
      have := find_boundaries_lt_length smoothed th b hb
      omega
    have hpart : Partition
        (enforce_min_segment_length (merge_short_sentences (split_into_sentences t) m)
          (find_boundaries smoothed th) sw)
        (merge_short_sentences (split_into_sentences t) m).length := by
      rw [enforce_min_segment_length]
      apply enforceLoop_partition
      exact buildSegs_partition _ _ (find_boundaries_pairwise smoothed th) hbnds (by omega)
    simp only [segment_transcript]
    rw [if_neg hlen0, if_neg h4, hsm]
    refine ⟨_, rfl, ?_, ?_⟩
    · simp only [ne_eq, List.map_eq_nil_iff]
      exact hpart.1
    · intro s hs
      obtain ⟨seg, hsegmem, rfl⟩ := List.mem_map.mp hs
      obtain ⟨hsle, hslt⟩ := partition_mem_bound hpart seg hsegmem
      have hslice_ne :
          ((merge_short_sentences (split_into_sentences t) m).drop seg.1).take
            (seg.2 + 1 - seg.1) ≠ [] := by
        apply List.length_pos.mp
        rw [List.length_take, List.length_drop]
        omega
      have hslice_units : ∀ u ∈
          ((merge_short_sentences (split_into_sentences t) m).drop seg.1).take
            (seg.2 + 1 - seg.1), u ≠ [] ∧ pyStrip u = u := by
        intro u hu
        exact hunits u
          ((List.drop_sublist _ _).subset ((List.take_sublist _ _).subset hu))
      obtain ⟨hjne, hjstr⟩ := joinSpace_spec _ hslice_units hslice_ne
      constructor
      · rw [hjstr]
        exact hjne
      · exact pyStrip_idem _

theorem claim_C10_witness :
    (split_into_sentences ['H','i','.'] ≠ []) ∧
    (((fun us : List Str => us.map (fun _ => [(0:ℝ)]))
        (merge_short_sentences (split_into_sentences ['H','i','.']) 6)).length =
      (merge_short_sentences (split_into_sentences ['H','i','.']) 6).length) ∧
    (∃ segs,
      (segment_transcript (fun us : List Str => us.map (fun _ => [(0:ℝ)]))
        ['H','i','.'] 6 1 0 35).1 = some segs ∧
      segs ≠ [] ∧ ∀ s ∈ segs, s ≠ [] ∧ pyStrip s = s) :=
  ⟨by decide, by simp,
    claim_C10 (fun us : List Str => us.map (fun _ => [(0:ℝ)])) ['H','i','.'] 6 1 0 35
      (by decide) (by simp) (Or.inl (by decide))⟩

theorem getLastD_zero_cons (k : ℕ) :
    (0 :: List.replicate k (0:ℝ)).getLastD 0 = 0 := by
  induction k with
  | zero => rfl
  | succ k ih =>
    rw [List.replicate_succ, List.getLastD_cons]
    exact ih

theorem smooth_zeros (n : ℕ) (hn : 1 ≤ n) (w : ℤ) (hw : 1 < w) :
    smooth (List.replicate n (0:ℝ)) w =
      some (List.replicate (n + 2 * (w / 2).toNat + 1 - w.toNat) (0:ℝ)) := by
  obtain ⟨k, rfl⟩ : ∃ k, n = k + 1 := ⟨n - 1, by omega⟩
  rw [smooth.eq_def, if_neg (by omega : ¬ w ≤ 1)]
  rw [List.replicate_succ]
  simp only []
  congr 1
  have hpadded : List.replicate ((w / 2).toNat) (0:ℝ) ++ (0 :: List.replicate k 0) ++
      List.replicate ((w / 2).toNat) ((0 :: List.replicate k (0:ℝ)).getLastD 0) =
      List.replicate ((w / 2).toNat + (k + 1) + (w / 2).toNat) (0:ℝ) := by
    rw [getLastD_zero_cons, ← List.replicate_succ, ← List.replicate_add,
      ← List.replicate_add]
  rw [hpadded]
  apply List.eq_replicate_iff.mpr
  constructor
  · rw [List.length_map, List.length_range, List.length_replicate]
    omega
  · intro b hb
    obtain ⟨j, _, rfl⟩ := List.mem_map.mp hb
    rw [List.drop_replicate, List.take_replicate, List.sum_replicate, smul_zero,
      zero_div]

theorem lowIdx_all {s : List ℝ} {t : ℝ} (h : ∀ i, i < s.length → s.getD i 0 < t) :
    lowIdx s t = List.range s.length := by
  rw [lowIdx]
  apply List.filter_eq_self.mpr
  intro a ha
  rw [decide_eq_true_eq]
  exact h a (List.mem_range.mp ha)

theorem segment_transcript_long_eq (embed : List Str → List (List ℝ)) (t : Str)
    (m w : ℤ) (th : ℝ) (sw : ℤ)
    (hlen0 : ¬ (split_into_sentences t).length = 0)
    (h4 : ¬ (merge_short_sentences (split_into_sentences t) m).length ≤ 4)
    (smoothed : List ℝ)
    (hsm : smooth (cosine_similarities
      (embed (merge_short_sentences (split_into_sentences t) m))) w = some smoothed) :
    segment_transcript embed t m w th sw =
      (some ((enforce_min_segment_length (merge_short_sentences (split_into_sentences t) m)
          (find_boundaries smoothed th) sw).map
        (fun seg => pyStrip (joinSpace
          (((merge_short_sentences (split_into_sentences t) m).drop seg.1).take
            (seg.2 + 1 - seg.1))))), true) := by
  simp only [segment_transcript]
  rw [if_neg hlen0, if_neg h4, hsm]

/-- Claim C10, counterexample: with an even `smooth_window` (2) and
`min_segment_words = 0` — both accepted by the code — and a contract-honoring
adapter returning one zero vector per unit, a five-sentence transcript yields
a sixth, empty segment string: the even window lengthens the smoothed series
to the unit count, producing a boundary index one past the valid range, whose
materialized empty range survives enforcement. -/
theorem claim_C10_cex :
    split_into_sentences ['A','.',' ','B','.',' ','C','.',' ','D','.',' ','E','.'] ≠ [] ∧
    (segment_transcript (fun us : List Str => us.map (fun _ => [(0:ℝ)]))
        ['A','.',' ','B','.',' ','C','.',' ','D','.',' ','E','.'] 0 2 1 0).1 =
      some [['A','.'], ['B','.'], ['C','.'], ['D','.'], ['E','.'], []] ∧
    ([] : Str) ∈ [['A','.'], ['B','.'], ['C','.'], ['D','.'], ['E','.'], ([] : Str)] := by
  refine ⟨by decide, ?_, by decide⟩
  have hsplit : split_into_sentences ['A','.',' ','B','.',' ','C','.',' ','D','.',' ','E','.'] =
      [['A','.'], ['B','.'], ['C','.'], ['D','.'], ['E','.']] := by decide
  have hmerge : merge_short_sentences [['A','.'], ['B','.'], ['C','.'], ['D','.'], ['E','.']] 0 =
      [['A','.'], ['B','.'], ['C','.'], ['D','.'], ['E','.']] := merge_nonpos _ 0 (le_refl 0)
  have hembeval : (fun us : List Str => us.map (fun _ => [(0:ℝ)]))
      [['A','.'], ['B','.'], ['C','.'], ['D','.'], ['E','.']] = [[0],[0],[0],[0],[0]] := rfl
  have hcos : cosine_similarities [[(0:ℝ)],[0],[0],[0],[0]] = List.replicate 4 0 := by
    simp [cosine_similarities, norm2, dotP, Real.sqrt_zero, List.replicate]
  have harith : (4 + 2 * ((2:ℤ) / 2).toNat + 1 - (2:ℤ).toNat) = 5 := by decide
  have hsm : smooth (cosine_similarities ((fun us : List Str => us.map (fun _ => [(0:ℝ)]))
      (merge_short_sentences
        (split_into_sentences ['A','.',' ','B','.',' ','C','.',' ','D','.',' ','E','.']) 0))) 2 =
      some (List.replicate 5 (0:ℝ)) := by
    rw [hsplit, hmerge, hembeval, hcos, smooth_zeros 4 (by omega) 2 (by omega), harith]
  have hfb : find_boundaries (List.replicate 5 (0:ℝ)) 1 = [0, 1, 2, 3, 4] := by
    rw [find_boundaries_eq, lowIdx_all, List.length_replicate]
    · decide
    · intro i hi
      rw [List.length_replicate] at hi
      rw [List.getD_eq_getElem _ _ (by simpa using hi), List.getElem_replicate]
      norm_num
  rw [segment_transcript_long_eq _ _ 0 2 1 0 (by rw [hsplit]; decide)
      (by rw [hsplit, hmerge]; decide) _ hsm]
  rw [hfb, hsplit, hmerge]
  rw [enforce_nonpos _ _ 0 (le_refl 0)]
  decide
